import Mathlib

/-!
Verification of the TableNormalizer core (`load_and_fix_data` in `src/app.py`)
of the small-business dashboard repository.

The routine is embedded shallowly:

* a decoded CSV file (`pd.read_csv(file_path, encoding=enc, header=None)`)
  is a list of rows, each a list of string cells (`Raw`);
* the interaction with the outside world — reading the file under a given
  encoding — is abstracted as a function `decode : Encoding → Option Raw`,
  where `none` models *any* exception escaping the `try:` body of the
  encoding loop (invalid byte sequences, a missing file, CSV parse errors):
  the code's bare `except: continue` treats all of them identically;
* a pandas DataFrame after header assignment is `DF`: a list of string
  column labels plus rows of `Cell`s, a cell being either a string or a
  number (after `pd.to_numeric`);
* `pd.to_numeric(..., errors='coerce').fillna(0)` on a single cell is
  modelled by `coerceCell`, built on a decimal-numeral parser `parseNumber`
  (optional sign, digit run, optional fractional digit run) producing `ℚ`.

Line numbers in doc comments refer to `src/app.py`.
-/

namespace App

/-- Characters stripped by Python's `str.strip()` (the `string.whitespace`
set: space, tab, newline, vertical tab, form feed, carriage return). -/
def isPySpace (c : Char) : Bool :=
  c = ' ' || c = '\t' || c = '\n' || c = '\x0b' || c = '\x0c' || c = '\r'

/-- A raw decoded CSV table: rows of string cells (`header=None`, so no
column labels yet). -/
abbrev Raw := List (List String)

/-- Substring containment: `strIn needle hay` models Python's
`needle in hay` on strings. -/
def strIn (needle hay : String) : Bool :=
  decide (needle.data <:+: hay.data)

/-- The three encoding candidates of line 34, in their fixed order. -/
inductive Encoding
  | utf8
  | cp949
  | euckr
deriving DecidableEq

/-- Line 34: `encodings = ['utf-8', 'cp949', 'euc-kr']`. -/
def encodings : List Encoding := [.utf8, .cp949, .euckr]

/-- Errors escaping `load_and_fix_data`: the `ValueError` of line 47 (the
spec's `DataFormatError`), and an `IndexError` from `df.iloc[i]` on a
too-short table in the header scan (lines 52-53), which no `except` guards. -/
inductive LoadError
  | dataFormat
  | indexError
deriving DecidableEq

/-- Join a list of character lists with single space separators. -/
def joinSp : List (List Char) → List Char
  | [] => []
  | [c] => c
  | c :: d :: rest => c ++ ' ' :: joinSp (d :: rest)

/-- Line 38: `df.iloc[0:3].astype(str).to_string()` — the first three rows
rendered as one text blob.  `to_string` separates adjacent cells (and the
numeric index/column labels) by whitespace, so for whitespace-free needles
containment in the rendering coincides with containment in the blob modelled
here: the cells of the first three rows joined by single spaces. -/
def sampleBlob (raw : Raw) : List Char :=
  joinSp (((raw.take 3).flatten).map String.data)

/-- Marker of line 39 (`'운영점포수'`, operating-store-count). -/
def marker1 : String := "운영점포수"

/-- Marker of lines 39 and 54 (`'점포수'`, store-count). -/
def marker2 : String := "점포수"

/-- Line 39: `'운영점포수' in sample_str or '점포수' in sample_str`. -/
def markerCheck (raw : Raw) : Bool :=
  decide (marker1.data <:+: sampleBlob raw) || decide (marker2.data <:+: sampleBlob raw)

/-- Lines 35-44: try each encoding in order.  An exception during
`pd.read_csv` (`decode e = none`) falls through to the next candidate; a
decoded table is kept only when its three-row blob contains a marker,
otherwise `df` is reset to `None` and the next candidate is tried.  The
result is `None` exactly when no candidate is accepted. -/
def tryEncodings (decode : Encoding → Option Raw) : List Encoding → Option Raw
  | [] => none
  | e :: rest =>
    match decode e with
    | none => tryEncodings decode rest
    | some raw => if markerCheck raw then some raw else tryEncodings decode rest

/-- Line 54: `any('점포수' in v for v in row_vals)`. -/
def rowHasMarker (row : List String) : Bool :=
  row.any fun v => strIn marker2 v

/-- Lines 50-56, unrolled `for i in range(3)`: find the first row index
among 0, 1, 2 whose cells contain the store-count marker.  `df.iloc[i]` on
a table with at most `i` rows raises `IndexError` (uncaught). -/
def scanHeaderIdx (raw : Raw) : Except LoadError (Option Nat) :=
  match raw[0]? with
  | none => .error .indexError
  | some r0 =>
    if rowHasMarker r0 then .ok (some 0)
    else
      match raw[1]? with
      | none => .error .indexError
      | some r1 =>
        if rowHasMarker r1 then .ok (some 1)
        else
          match raw[2]? with
          | none => .error .indexError
          | some r2 =>
            if rowHasMarker r2 then .ok (some 2) else .ok none

/-- Column labels of a freshly loaded table: `header=None` gives the
integer labels `0, 1, ...`, which line 63 later casts to strings. -/
def defaultCols (raw : Raw) : List String :=
  (List.range (raw.head?.getD []).length).map toString

/-- Lines 58-61: when a header row was found at index `i`, promote row `i`
to the column labels and keep only the rows after it (`df.iloc[i+1:]`,
`reset_index(drop=True)` — positional indexing is automatic in the list
model); otherwise leave the table as loaded.  Returns (columns, rows,
`is_fixed`). -/
def applyHeaderFix (raw : Raw) : Option Nat → List String × Raw × Bool
  | some i => ((raw[i]?).getD [], raw.drop (i + 1), true)
  | none => (defaultCols raw, raw, false)

/-- Removal of space characters in line 63: `.str.replace(' ', '')`
deletes every `' '` (only U+0020, not other whitespace). -/
def removeSpaces (l : List Char) : List Char :=
  l.filter fun c => c ≠ ' '

/-- Python `str.strip()`: drop leading and trailing whitespace. -/
def stripPy (l : List Char) : List Char :=
  (((l.dropWhile fun c => isPySpace c).reverse.dropWhile fun c => isPySpace c)).reverse

/-- Line 63 per column label:
`df.columns.astype(str).str.replace(' ', '').str.strip()`. -/
def cleanHeader (s : String) : String :=
  ⟨stripPy (removeSpaces s.data)⟩

/-- Lines 65-73: the ordered source-fragment → canonical-name map
(`col_map`; Python dicts iterate in insertion order). -/
def col_map : List (String × String) :=
  [("생활밀접업종별(1)", "대분류"),
   ("생활밀접업종별(2)", "소분류"),
   ("운영점포수(개)", "점포수"),
   ("종사자수(명)", "종사자수"),
   ("평균영업기간(년)", "영업기간"),
   ("면적당매출액(백만원/3.3㎡)", "면적당매출"),
   ("면적당종사자수(명/3.3㎡)", "면적당종사자")]

/-- Lines 75-80: a column label is renamed to the canonical name of the
last `col_map` entry whose key fragment it contains (`new_cols[col] = v`
overwrites on each match); a label matching no fragment is unchanged. -/
def renameCol (c : String) : String :=
  col_map.foldl (fun acc kv => if strIn kv.1 c then kv.2 else acc) c

/-- Line 82: the five designated numeric canonical columns. -/
def numeric_cols : List String :=
  ["점포수", "종사자수", "영업기간", "면적당매출", "면적당종사자"]

/-- A cell of the normalized table: still a string, or a number produced
by the numeric coercion of lines 85-86. -/
inductive Cell
  | str (s : String)
  | num (q : ℚ)
deriving DecidableEq

/-- The normalized table: string column labels and rows of cells. -/
structure DF where
  cols : List String
  rows : List (List Cell)
deriving DecidableEq

/-- All digits test for a character run. -/
def allDigits (l : List Char) : Bool :=
  l.all fun c => c.isDigit

/-- Numeric value of a digit run, as a natural number. -/
def natOfDigits (l : List Char) : ℕ :=
  l.foldl (fun a c => a * 10 + (c.toNat - 48)) 0

/-- Unsigned numeral: a nonempty digit run, optionally followed by `'.'`
and a (possibly empty) digit run; the value of `d.f` is
`(d * 10^k + f) / 10^k` with `k` the length of the fractional run. -/
def parseUnsigned (l : List Char) : Option ℚ :=
  let d := l.takeWhile fun c => c ≠ '.'
  match l.dropWhile fun c => c ≠ '.' with
  | [] => if d.isEmpty = false && allDigits d then some ((natOfDigits d : ℕ) : ℚ) else none
  | _ :: f =>
    if d.isEmpty = false && allDigits d && allDigits f then
      some (mkRat ((natOfDigits d * 10 ^ f.length + natOfDigits f : ℕ) : ℤ) (10 ^ f.length))
    else none

/-- Modelled behavior of `pd.to_numeric` (line 86) on one string: an
optional sign followed by a decimal numeral parses to the denoted rational;
anything else fails (yields NaN under `errors='coerce'`). -/
def parseNumber (s : String) : Option ℚ :=
  match s.data with
  | '-' :: rest => (parseUnsigned rest).map fun q => -q
  | '+' :: rest => parseUnsigned rest
  | l => parseUnsigned l

/-- Line 85: `.str.replace(',', '', regex=False)` — delete every comma. -/
def removeCommas (s : String) : String :=
  ⟨s.data.filter fun c => c ≠ ','⟩

/-- Rendering of a cell by `.astype(str)` (line 85). -/
def cellToStr : Cell → String
  | .str s => s
  | .num q => toString q

/-- Lines 85-86 on one cell: to text, strip commas, parse, and replace a
parse failure by zero (`errors='coerce'` then `.fillna(0)`). -/
def coerceCell (c : Cell) : Cell :=
  .num ((parseNumber (removeCommas (cellToStr c))).getD 0)

/-- Apply `coerceCell` to the cells of one row sitting in positions whose
column label (the label at the same position, starting from index `j`)
equals `col`. -/
def coerceRowAux (cols : List String) (col : String) : Nat → List Cell → List Cell
  | _, [] => []
  | j, cell :: rest =>
    (if cols[j]? = some col then coerceCell cell else cell) ::
      coerceRowAux cols col (j + 1) rest

/-- Lines 84-86, one iteration: `if col in df.columns`, coerce every cell
of every row sitting in a position labelled `col`. -/
def coerceStep (d : DF) (col : String) : DF :=
  if d.cols.contains col then
    { d with rows := d.rows.map (coerceRowAux d.cols col 0) }
  else d

/-- Lines 82-86: for each of the five designated numeric columns present
among the labels, coerce every cell of every row in that column. -/
def coerceNumericCols (df : DF) : DF :=
  numeric_cols.foldl coerceStep df

/-- The cells of `df` lying in columns labelled `col`, row by row,
starting the label lookup at position `j`. -/
def colCellsRow (cols : List String) (col : String) : Nat → List Cell → List Cell
  | _, [] => []
  | j, cell :: rest =>
    if cols[j]? = some col then cell :: colCellsRow cols col (j + 1) rest
    else colCellsRow cols col (j + 1) rest

/-- All cells of `df` lying in columns labelled `col`. -/
def colCells (df : DF) (col : String) : List Cell :=
  (df.rows.map (colCellsRow df.cols col 0)).flatten

/-- Lines 30-88, `load_and_fix_data`: the whole TableNormalizer pipeline
over an abstract per-encoding decode result. -/
def load_and_fix_data (decode : Encoding → Option Raw) : Except LoadError (DF × Bool) :=
  match tryEncodings decode encodings with
  | none => .error .dataFormat
  | some raw =>
    match scanHeaderIdx raw with
    | .error e => .error e
    | .ok idx =>
      let fixRes := applyHeaderFix raw idx
      let cols := (fixRes.1.map cleanHeader).map renameCol
      let df : DF := { cols := cols, rows := fixRes.2.1.map fun r => r.map Cell.str }
      .ok (coerceNumericCols df, fixRes.2.2)

/-! Helper lemmas: a whitespace-free needle contained in a space-joined
blob is contained in one of the joined pieces. -/

theorem prefix_of_eq_append_sep {p : Char} {v b : List Char} :
    ∀ {n a : List Char}, p ∉ n → n ++ v = a ++ p :: b → n <+: a := by
  intro n
  induction n with
  | nil => intro a _ _; exact List.nil_prefix
  | cons x n' ih =>
    intro a hp h
    cases a with
    | nil =>
      rw [List.cons_append, List.nil_append] at h
      injection h with h1 h2
      exact absurd (h1 ▸ List.mem_cons_self x n') hp
    | cons c a' =>
      rw [List.cons_append, List.cons_append] at h
      injection h with h1 h2
      have hp' : p ∉ n' := fun hmem => hp (List.mem_cons_of_mem x hmem)
      exact List.cons_prefix_cons.mpr ⟨h1, ih hp' h2⟩

theorem sep_split_eq {p : Char} {b : List Char} :
    ∀ (u : List Char) {a n v : List Char}, p ∉ n →
      u ++ (n ++ v) = a ++ p :: b → n <:+: a ∨ n <:+: b := by
  intro u
  induction u with
  | nil =>
    intro a n v hp h
    rw [List.nil_append] at h
    exact Or.inl (prefix_of_eq_append_sep hp h).isInfix
  | cons w u' ih =>
    intro a n v hp h
    cases a with
    | nil =>
      rw [List.cons_append, List.nil_append] at h
      injection h with h1 h2
      exact Or.inr ⟨u', v, by rw [List.append_assoc]; exact h2⟩
    | cons c a' =>
      rw [List.cons_append, List.cons_append] at h
      injection h with h1 h2
      rcases ih hp h2 with h3 | h3
      · exact Or.inl (h3.trans ⟨[c], [], by simp⟩)
      · exact Or.inr h3

theorem sep_split {p : Char} {n a b : List Char} (hp : p ∉ n)
    (h : n <:+: a ++ p :: b) : n <:+: a ∨ n <:+: b := by
  obtain ⟨u, v, huv⟩ := h
  exact sep_split_eq u hp (by rw [← List.append_assoc]; exact huv)

theorem isInfix_joinSp {n : List Char} (hn : n ≠ []) (hsp : ' ' ∉ n) :
    ∀ cells : List (List Char), (n <:+: joinSp cells ↔ ∃ c ∈ cells, n <:+: c) := by
  intro cells
  induction cells with
  | nil => simp [joinSp, hn]
  | cons c rest ih =>
    cases rest with
    | nil => simp [joinSp]
    | cons d rest' =>
      show n <:+: c ++ ' ' :: joinSp (d :: rest') ↔ _
      constructor
      · intro h
        rcases sep_split hsp h with h1 | h2
        · exact ⟨c, List.mem_cons_self c _, h1⟩
        · obtain ⟨x, hx, hnx⟩ := ih.mp h2
          exact ⟨x, List.mem_cons_of_mem c hx, hnx⟩
      · rintro ⟨x, hx, hnx⟩
        rcases List.mem_cons.mp hx with rfl | hx'
        · exact hnx.trans ⟨[], ' ' :: joinSp (d :: rest'), by simp⟩
        · exact (ih.mpr ⟨x, hx', hnx⟩).trans ⟨c ++ [' '], [], by simp⟩

/-! Helper lemmas: acceptance by the marker sniff of line 39 guarantees the
header scan of lines 52-56 finds a marker row. -/

theorem mem_take3 {raw : Raw} {row : List String} (h : row ∈ raw.take 3) :
    ∃ i, i < 3 ∧ raw[i]? = some row := by
  match raw with
  | [] => simp at h
  | [a] =>
    simp only [List.take, List.mem_singleton] at h
    exact ⟨0, by omega, by simp [h]⟩
  | [a, b] =>
    simp only [List.take, List.mem_cons, List.mem_singleton, List.not_mem_nil, or_false] at h
    rcases h with rfl | rfl
    · exact ⟨0, by omega, by simp⟩
    · exact ⟨1, by omega, by simp⟩
  | a :: b :: c :: rest =>
    have ht : (a :: b :: c :: rest).take 3 = [a, b, c] := rfl
    rw [ht] at h
    simp only [List.mem_cons, List.not_mem_nil, or_false] at h
    rcases h with rfl | rfl | rfl
    · exact ⟨0, by omega, by simp⟩
    · exact ⟨1, by omega, by simp⟩
    · exact ⟨2, by omega, by simp⟩

theorem marker_row_of_markerCheck {raw : Raw} (h : markerCheck raw = true) :
    ∃ i, i < 3 ∧ ∃ row, raw[i]? = some row ∧ rowHasMarker row = true := by
  have hm : marker2.data <:+: sampleBlob raw := by
    rcases Bool.or_eq_true_iff.mp h with h1 | h2
    · exact List.IsInfix.trans (by decide) (of_decide_eq_true h1)
    · exact of_decide_eq_true h2
  have hex : ∃ cdat ∈ ((raw.take 3).flatten).map String.data, marker2.data <:+: cdat :=
    (isInfix_joinSp (by decide) (by decide) _).mp hm
  obtain ⟨cdat, hcmem, hcinf⟩ := hex
  obtain ⟨s, hsmem, hseq⟩ := List.mem_map.mp hcmem
  obtain ⟨row, hrowmem, hsrow⟩ := List.mem_flatten.mp hsmem
  obtain ⟨i, hi3, hgeti⟩ := mem_take3 hrowmem
  refine ⟨i, hi3, row, hgeti, ?_⟩
  unfold rowHasMarker strIn
  rw [List.any_eq_true]
  exact ⟨s, hsrow, decide_eq_true (hseq ▸ hcinf)⟩

theorem scanHeaderIdx_finds {raw : Raw}
    (h : ∃ i, i < 3 ∧ ∃ row, raw[i]? = some row ∧ rowHasMarker row = true) :
    ∃ j, scanHeaderIdx raw = .ok (some j) := by
  obtain ⟨i, hi3, row, hget, hmark⟩ := h
  have hilen : i < raw.length := (List.getElem?_eq_some_iff.mp hget).1
  cases h0 : raw[0]? with
  | none =>
    have := List.getElem?_eq_none_iff.mp h0
    omega
  | some r0 =>
    by_cases hm0 : rowHasMarker r0 = true
    · exact ⟨0, by simp [scanHeaderIdx, h0, hm0]⟩
    · have hi0 : i ≠ 0 := by
        intro he
        rw [he, h0] at hget
        injection hget with he2
        exact hm0 (he2 ▸ hmark)
      cases h1 : raw[1]? with
      | none =>
        have := List.getElem?_eq_none_iff.mp h1
        omega
      | some r1 =>
        by_cases hm1 : rowHasMarker r1 = true
        · exact ⟨1, by simp [scanHeaderIdx, h0, hm0, h1, hm1]⟩
        · have hi1 : i ≠ 1 := by
            intro he
            rw [he, h1] at hget
            injection hget with he2
            exact hm1 (he2 ▸ hmark)
          have hi2 : i = 2 := by omega
          cases h2 : raw[2]? with
          | none =>
            have := List.getElem?_eq_none_iff.mp h2
            omega
          | some r2 =>
            have hm2 : rowHasMarker r2 = true := by
              rw [hi2, h2] at hget
              injection hget with he2
              exact he2 ▸ hmark
            exact ⟨2, by simp [scanHeaderIdx, h0, hm0, h1, hm1, h2, hm2]⟩

theorem tryEncodings_marker {decode : Encoding → Option Raw} :
    ∀ {L : List Encoding} {raw : Raw},
      tryEncodings decode L = some raw → markerCheck raw = true := by
  intro L
  induction L with
  | nil => intro raw h; simp [tryEncodings] at h
  | cons e rest ih =>
    intro raw h
    cases hd : decode e with
    | none =>
      simp only [tryEncodings, hd] at h
      exact ih h
    | some r =>
      simp only [tryEncodings, hd] at h
      by_cases hm : markerCheck r = true
      · rw [if_pos hm] at h
        injection h with h2
        exact h2 ▸ hm
      · rw [if_neg hm] at h
        exact ih h

/-- Elimination form of a successful `load_and_fix_data` run: it exposes
the accepted raw table, the found header index, and the shape of the
returned data. -/
theorem load_ok_elim {decode : Encoding → Option Raw} {df : DF} {fixed : Bool}
    (h : load_and_fix_data decode = .ok (df, fixed)) :
    ∃ raw i, tryEncodings decode encodings = some raw ∧
      scanHeaderIdx raw = .ok (some i) ∧ fixed = true ∧
      df = coerceNumericCols
        { cols := (((applyHeaderFix raw (some i)).1.map cleanHeader).map renameCol),
          rows := (applyHeaderFix raw (some i)).2.1.map fun r => r.map Cell.str } := by
  cases htry : tryEncodings decode encodings with
  | none =>
    simp only [load_and_fix_data, htry] at h
    exact Except.noConfusion h
  | some raw =>
    have hmk : markerCheck raw = true := tryEncodings_marker htry
    obtain ⟨j, hscan⟩ := scanHeaderIdx_finds (marker_row_of_markerCheck hmk)
    simp only [load_and_fix_data, htry, hscan] at h
    injection h with h2
    simp only [Prod.mk.injEq] at h2
    have hfx : (applyHeaderFix raw (some j)).2.2 = true := rfl
    exact ⟨raw, j, rfl, hscan, h2.2 ▸ hfx, h2.1.symm⟩

/-! Helper lemmas about the header cleanup of line 63. -/

theorem dropWhile_idem (p : Char → Bool) (l : List Char) :
    (l.dropWhile p).dropWhile p = l.dropWhile p := by
  induction l with
  | nil => rfl
  | cons a t ih =>
    by_cases h : p a = true
    · rw [List.dropWhile_cons_of_pos h, ih]
    · rw [List.dropWhile_cons_of_neg h, List.dropWhile_cons_of_neg h]

theorem dropWhile_eq_self_of_prefix {p : Char → Bool} {l m : List Char}
    (hpre : m <+: l) (hl : l.dropWhile p = l) : m.dropWhile p = m := by
  cases m with
  | nil => rfl
  | cons a t =>
    obtain ⟨rem, hrem⟩ := hpre
    have hpa : p a = false := by
      rcases Bool.eq_false_or_eq_true (p a) with ht | hf
      · exfalso
        rw [← hrem, List.cons_append, List.dropWhile_cons_of_pos ht] at hl
        have hlen := (List.dropWhile_sublist p (l := t ++ rem)).length_le
        rw [hl] at hlen
        simp at hlen
      · exact hf
    rw [List.dropWhile_cons_of_neg (by simp [hpa])]

theorem stripPy_subset (l : List Char) : ∀ c, c ∈ stripPy l → c ∈ l := by
  intro c hc
  rw [stripPy, List.mem_reverse] at hc
  have h1 := (List.dropWhile_sublist fun c => isPySpace c).subset hc
  rw [List.mem_reverse] at h1
  exact (List.dropWhile_sublist fun c => isPySpace c).subset h1

theorem dropWhile_stripPy (l : List Char) :
    (stripPy l).dropWhile (fun c => isPySpace c) = stripPy l := by
  have hX : (l.dropWhile fun c => isPySpace c).dropWhile (fun c => isPySpace c)
      = l.dropWhile fun c => isPySpace c := dropWhile_idem _ l
  have hsuf : ((l.dropWhile fun c => isPySpace c).reverse.dropWhile fun c => isPySpace c)
      <:+ (l.dropWhile fun c => isPySpace c).reverse := List.dropWhile_suffix _
  have hpre : stripPy l <+: (l.dropWhile fun c => isPySpace c) := by
    have h2 := List.reverse_prefix.mpr hsuf
    rwa [List.reverse_reverse] at h2
  exact dropWhile_eq_self_of_prefix hpre hX

theorem rev_dropWhile_stripPy (l : List Char) :
    (stripPy l).reverse.dropWhile (fun c => isPySpace c) = (stripPy l).reverse := by
  rw [stripPy, List.reverse_reverse]
  exact dropWhile_idem _ _

theorem stripPy_stripPy (l : List Char) : stripPy (stripPy l) = stripPy l := by
  conv_lhs => rw [stripPy]
  rw [dropWhile_stripPy, rev_dropWhile_stripPy, List.reverse_reverse]

theorem removeSpaces_no_space {l : List Char} {c : Char}
    (h : c ∈ removeSpaces l) : c ≠ ' ' := by
  rw [removeSpaces, List.mem_filter] at h
  exact of_decide_eq_true h.2

theorem removeSpaces_eq_self {l : List Char} (h : ∀ c ∈ l, c ≠ ' ') :
    removeSpaces l = l :=
  List.filter_eq_self.mpr fun c hc => decide_eq_true (h c hc)

theorem cleanHeader_no_space {s : String} {c : Char}
    (h : c ∈ (cleanHeader s).data) : c ≠ ' ' :=
  removeSpaces_no_space (stripPy_subset _ c h)

theorem cleanHeader_dropWhile (s : String) :
    (cleanHeader s).data.dropWhile (fun c => isPySpace c) = (cleanHeader s).data :=
  dropWhile_stripPy _

theorem cleanHeader_rev_dropWhile (s : String) :
    (cleanHeader s).data.reverse.dropWhile (fun c => isPySpace c)
      = (cleanHeader s).data.reverse :=
  rev_dropWhile_stripPy _

/-! Helper lemmas about the overwrite fold of the renaming step and about
the numeric coercion fold. -/

theorem foldl_overwrite {α β : Type} (p : α × β → Bool) :
    ∀ (L : List (α × β)) (init : β),
      L.foldl (fun acc kv => if p kv then kv.2 else acc) init
        = (((L.filter p).getLast?).map Prod.snd).getD init := by
  intro L
  induction L with
  | nil => intro init; rfl
  | cons kv L' ih =>
    intro init
    by_cases h : p kv = true
    · rw [List.foldl_cons, if_pos h, List.filter_cons_of_pos h, ih]
      cases hfl : L'.filter p with
      | nil => simp
      | cons x xs =>
        rw [List.getLast?_cons_cons, List.getLast?_eq_getLast (x :: xs) (by simp)]
        simp
    · rw [List.foldl_cons, if_neg (by simp [h]), List.filter_cons_of_neg (by simp [h]), ih]

theorem colCellsRow_coerce_self (cols : List String) (col : String) :
    ∀ (j : Nat) (r : List Cell),
      colCellsRow cols col j (coerceRowAux cols col j r)
        = (colCellsRow cols col j r).map coerceCell := by
  intro j r
  induction r generalizing j with
  | nil => rfl
  | cons cell rest ih =>
    by_cases h : cols[j]? = some col
    · simp only [coerceRowAux, colCellsRow, if_pos h, List.map_cons]
      rw [ih]
    · simp only [coerceRowAux, colCellsRow, if_neg h]
      rw [ih]

theorem colCellsRow_coerce_other (cols : List String) {col col' : String}
    (hne : col ≠ col') :
    ∀ (j : Nat) (r : List Cell),
      colCellsRow cols col j (coerceRowAux cols col' j r)
        = colCellsRow cols col j r := by
  intro j r
  induction r generalizing j with
  | nil => rfl
  | cons cell rest ih =>
    by_cases h' : cols[j]? = some col'
    · have h : ¬ cols[j]? = some col := by
        rw [h']
        intro hcon
        injection hcon with he
        exact hne he.symm
      simp only [coerceRowAux, colCellsRow, if_pos h', if_neg h]
      rw [ih]
    · by_cases h : cols[j]? = some col
      · simp only [coerceRowAux, colCellsRow, if_pos h, if_neg h']
        rw [ih]
      · simp only [coerceRowAux, colCellsRow, if_neg h, if_neg h']
        rw [ih]

theorem colCellsRow_nil_of_not_mem {cols : List String} {col : String}
    (h : col ∉ cols) : ∀ (j : Nat) (r : List Cell), colCellsRow cols col j r = [] := by
  intro j r
  induction r generalizing j with
  | nil => rfl
  | cons cell rest ih =>
    have hj : ¬ cols[j]? = some col := fun hc => h (List.getElem?_mem hc)
    simp only [colCellsRow, if_neg hj]
    exact ih (j + 1)

theorem coerceStep_cols (d : DF) (col : String) : (coerceStep d col).cols = d.cols := by
  rw [coerceStep]
  by_cases h : d.cols.contains col = true
  · rw [if_pos h]
  · rw [if_neg h]

theorem foldl_coerceStep_cols : ∀ (L : List String) (d : DF),
    (L.foldl coerceStep d).cols = d.cols := by
  intro L
  induction L with
  | nil => intro d; rfl
  | cons c L' ih =>
    intro d
    rw [List.foldl_cons, ih, coerceStep_cols]

theorem colCells_coerceStep_self (d : DF) (col : String) :
    ∀ cell ∈ colCells (coerceStep d col) col, ∃ q, cell = Cell.num q := by
  intro cell hcell
  rw [coerceStep] at hcell
  by_cases h : d.cols.contains col = true
  · rw [if_pos h] at hcell
    rw [colCells] at hcell
    obtain ⟨piece, hpiece, hcellp⟩ := List.mem_flatten.mp hcell
    obtain ⟨r, hr, hreq⟩ := List.mem_map.mp hpiece
    obtain ⟨r0, hr0, hr0eq⟩ := List.mem_map.mp hr
    rw [← hreq, ← hr0eq] at hcellp
    rw [colCellsRow_coerce_self] at hcellp
    obtain ⟨c0, _, hc0⟩ := List.mem_map.mp hcellp
    exact ⟨_, hc0.symm⟩
  · rw [if_neg h] at hcell
    have hnm : col ∉ d.cols := fun hmem => h (List.elem_eq_true_of_mem hmem)
    rw [colCells] at hcell
    obtain ⟨piece, hpiece, hcellp⟩ := List.mem_flatten.mp hcell
    obtain ⟨r, _, hreq⟩ := List.mem_map.mp hpiece
    rw [← hreq, colCellsRow_nil_of_not_mem hnm] at hcellp
    exact absurd hcellp (List.not_mem_nil cell)

theorem colCells_coerceStep_other (d : DF) {col col' : String} (hne : col ≠ col') :
    colCells (coerceStep d col') col = colCells d col := by
  rw [coerceStep]
  by_cases h : d.cols.contains col' = true
  · rw [if_pos h]
    rw [colCells, colCells]
    simp only [List.map_map]
    congr 1
    apply List.map_congr_left
    intro r _
    simp only [Function.comp_apply]
    exact colCellsRow_coerce_other d.cols hne 0 r
  · rw [if_neg h]

theorem allNum_foldl_coerceStep :
    ∀ (L : List String) (d : DF) (col : String),
      (∀ cell ∈ colCells d col, ∃ q, cell = Cell.num q) →
      ∀ cell ∈ colCells (L.foldl coerceStep d) col, ∃ q, cell = Cell.num q := by
  intro L
  induction L with
  | nil => intro d col h; exact h
  | cons c L' ih =>
    intro d col h
    rw [List.foldl_cons]
    apply ih
    by_cases hc : col = c
    · exact hc ▸ colCells_coerceStep_self d col
    · rw [colCells_coerceStep_other d hc]
      exact h

theorem allNum_of_mem_foldl :
    ∀ (L : List String) (d : DF) (col : String), col ∈ L →
      ∀ cell ∈ colCells (L.foldl coerceStep d) col, ∃ q, cell = Cell.num q := by
  intro L
  induction L with
  | nil => intro d col h; exact absurd h (List.not_mem_nil col)
  | cons c L' ih =>
    intro d col hmem
    rcases List.mem_cons.mp hmem with rfl | hmem'
    · rw [List.foldl_cons]
      exact allNum_foldl_coerceStep L' (coerceStep d col) col
        (colCells_coerceStep_self d col)
    · rw [List.foldl_cons]
      exact ih (coerceStep d c) col hmem'

/-! Acceptance of encoding candidates and characterizations of the
encoding loop. -/

/-- Acceptance of one encoding candidate (lines 36-40): decoding succeeds
and the first three rows, rendered as a blob, contain a marker. -/
def acceptsEnc (decode : Encoding → Option Raw) (e : Encoding) : Prop :=
  ∃ r, decode e = some r ∧ markerCheck r = true

theorem not_acceptsEnc_none {decode : Encoding → Option Raw} {e : Encoding}
    (h : decode e = none) : ¬ acceptsEnc decode e := by
  rintro ⟨r, hr, -⟩
  rw [h] at hr
  exact Option.noConfusion hr

theorem not_acceptsEnc_nomarker {decode : Encoding → Option Raw} {e : Encoding} {r : Raw}
    (h : decode e = some r) (hm : ¬ markerCheck r = true) : ¬ acceptsEnc decode e := by
  rintro ⟨r', hr', hm'⟩
  rw [h] at hr'
  injection hr' with he
  exact hm (he ▸ hm')

theorem load_ok_of_accepted {decode : Encoding → Option Raw} {raw : Raw}
    (htry : tryEncodings decode encodings = some raw) :
    ∃ df, load_and_fix_data decode = .ok (df, true) := by
  obtain ⟨j, hscan⟩ :=
    scanHeaderIdx_finds (marker_row_of_markerCheck (tryEncodings_marker htry))
  refine ⟨coerceNumericCols
    { cols := (((applyHeaderFix raw (some j)).1.map cleanHeader).map renameCol),
      rows := (applyHeaderFix raw (some j)).2.1.map fun r => r.map Cell.str }, ?_⟩
  simp only [load_and_fix_data, htry, hscan]
  rfl

theorem tryEncodings_eq_none_iff (decode : Encoding → Option Raw) :
    ∀ L : List Encoding,
      (tryEncodings decode L = none ↔ ∀ e ∈ L, ¬ acceptsEnc decode e) := by
  intro L
  induction L with
  | nil => simp [tryEncodings]
  | cons e rest ih =>
    cases hd : decode e with
    | none =>
      simp only [tryEncodings, hd]
      rw [ih]
      constructor
      · intro h e' he'
        rcases List.mem_cons.mp he' with rfl | hmem
        · exact not_acceptsEnc_none hd
        · exact h e' hmem
      · intro h e' he'
        exact h e' (List.mem_cons_of_mem e he')
    | some r =>
      by_cases hm : markerCheck r = true
      · simp only [tryEncodings, hd, if_pos hm]
        constructor
        · intro h
          exact Option.noConfusion h
        · intro h
          exact absurd ⟨r, hd, hm⟩ (h e (List.mem_cons_self e rest))
      · simp only [tryEncodings, hd, if_neg hm]
        rw [ih]
        constructor
        · intro h e' he'
          rcases List.mem_cons.mp he' with rfl | hmem
          · exact not_acceptsEnc_nomarker hd hm
          · exact h e' hmem
        · intro h e' he'
          exact h e' (List.mem_cons_of_mem e he')

theorem tryEncodings_cons_iff (decode : Encoding → Option Raw) (e : Encoding)
    (rest : List Encoding) (raw : Raw) :
    tryEncodings decode (e :: rest) = some raw ↔
      ((decode e = some raw ∧ markerCheck raw = true) ∨
        (¬ acceptsEnc decode e ∧ tryEncodings decode rest = some raw)) := by
  cases hd : decode e with
  | none =>
    simp only [tryEncodings, hd]
    constructor
    · intro h
      exact Or.inr ⟨not_acceptsEnc_none hd, h⟩
    · rintro (⟨hda, -⟩ | ⟨-, h⟩)
      · exact Option.noConfusion hda
      · exact h
  | some r =>
    by_cases hm : markerCheck r = true
    · simp only [tryEncodings, hd, if_pos hm]
      constructor
      · intro h
        injection h with h2
        exact Or.inl ⟨by rw [h2], h2 ▸ hm⟩
      · rintro (⟨hda, hma⟩ | ⟨hacc, -⟩)
        · exact hda
        · exact absurd ⟨r, hd, hm⟩ hacc
    · simp only [tryEncodings, hd, if_neg hm]
      constructor
      · intro h
        exact Or.inr ⟨not_acceptsEnc_nomarker hd hm, h⟩
      · rintro (⟨hda, hma⟩ | ⟨-, h⟩)
        · injection hda with h2
          rw [← h2] at hma
          exact absurd hma hm
        · exact h

/-! Helper lemmas about the renaming fold and header cleanliness. -/

theorem foldl_overwrite_mem {α β : Type} (p : α × β → Bool) :
    ∀ (L : List (α × β)) (init : β),
      L.foldl (fun acc kv => if p kv then kv.2 else acc) init = init ∨
        L.foldl (fun acc kv => if p kv then kv.2 else acc) init ∈ L.map Prod.snd := by
  intro L
  induction L with
  | nil => intro init; exact Or.inl rfl
  | cons kv L' ih =>
    intro init
    rw [List.foldl_cons, List.map_cons]
    by_cases hp : p kv = true
    · rw [if_pos hp]
      rcases ih kv.2 with h | h
      · rw [h]; exact Or.inr (List.mem_cons_self _ _)
      · exact Or.inr (List.mem_cons_of_mem _ h)
    · rw [if_neg hp]
      rcases ih init with h | h
      · exact Or.inl h
      · exact Or.inr (List.mem_cons_of_mem _ h)

theorem renameCol_cases (c : String) :
    renameCol c = c ∨ renameCol c ∈ col_map.map Prod.snd :=
  foldl_overwrite_mem (fun kv => strIn kv.1 c) col_map c

/-- What the cleanup of line 63 actually guarantees about a header: no
space character (U+0020) anywhere, and no leading or trailing Python
whitespace. -/
def headerCodeClean (s : String) : Prop :=
  (∀ c ∈ s.data, c ≠ ' ') ∧
  s.data.dropWhile (fun c => isPySpace c) = s.data ∧
  s.data.reverse.dropWhile (fun c => isPySpace c) = s.data.reverse

theorem cleanHeader_clean (u : String) : headerCodeClean (cleanHeader u) :=
  ⟨fun _ hc => cleanHeader_no_space hc, cleanHeader_dropWhile u, cleanHeader_rev_dropWhile u⟩

theorem canonical_names_clean : ∀ v ∈ col_map.map Prod.snd, headerCodeClean v := by
  intro v hv
  fin_cases hv <;> exact ⟨by decide, rfl, rfl⟩

/-! Concrete fixtures used by witnesses and counterexamples. -/

/-- A well-formed two-column fixture: header row with the major-category
and store-count source names, one data row with a comma-separated count. -/
def happyRaw : Raw := [["생활밀접업종별(1)", "운영점포수(개)"], ["외식업", "1,234"]]

/-- Decode environment in which every encoding yields `happyRaw`. -/
def happyDecode : Encoding → Option Raw := fun _ => some happyRaw

/-- The normalized table produced from `happyRaw`. -/
def happyDF : DF :=
  { cols := ["대분류", "점포수"], rows := [[Cell.str "외식업", Cell.num 1234]] }

/-- Fixture whose store-count cell is the negative numeral `-5`. -/
def negRaw : Raw := [["생활밀접업종별(1)", "운영점포수(개)"], ["외식업", "-5"]]

/-- Decode environment in which every encoding yields `negRaw`. -/
def negDecode : Encoding → Option Raw := fun _ => some negRaw

/-- The normalized table produced from `negRaw`: the coerced store count
is the negative number `-5`. -/
def negDF : DF :=
  { cols := ["대분류", "점포수"], rows := [[Cell.str "외식업", Cell.num (-5)]] }

/-- Fixture whose first header cell carries an interior tab character. -/
def tabRaw : Raw := [["a\tb", "점포수계"], ["x", "y"]]

/-- Decode environment in which every encoding yields `tabRaw`. -/
def tabDecode : Encoding → Option Raw := fun _ => some tabRaw

/-- The normalized table produced from `tabRaw`: the interior tab of the
first header survives the cleanup of line 63. -/
def tabDF : DF :=
  { cols := ["a\tb", "점포수계"], rows := [[Cell.str "x", Cell.str "y"]] }

/-- Fixture with two junk rows before the marker row. -/
def demoRaw : Raw := [["x"], ["y"], ["점포수", "z"], ["d", "e"]]

/-- Decode environment in which every read attempt raises (a missing
file, invalid bytes, or a CSV parse error). -/
def noneDecode : Encoding → Option Raw := fun _ => none

/-! Claim theorems. -/

/-- The invariant claimed by the spec for C1: every cell of each
designated numeric column present in the table is a non-negative number
with no missing entry. -/
def numericColsNonneg (df : DF) : Prop :=
  ∀ col ∈ numeric_cols, ∀ cell ∈ colCells df col, ∃ q, cell = Cell.num q ∧ 0 ≤ q

/-- C1, counterexample: a load that succeeds on a file whose store-count
cell is the numeral "-5" returns -5 in the 점포수 column, a negative
value, so the claimed non-negativity invariant fails on the code. -/
theorem c1_counterexample :
    load_and_fix_data negDecode = Except.ok (negDF, true) ∧ ¬ numericColsNonneg negDF := by
  refine ⟨rfl, ?_⟩
  intro h
  obtain ⟨q, hq, hle⟩ := h "점포수" (by decide) (Cell.num (-5)) (by decide)
  injection hq with hq2
  rw [← hq2] at hle
  exact absurd hle (by decide)

/-- C1 (amended): for every input on which load succeeds, each of the five
designated numeric canonical columns that is present in the returned table
contains only numeric cells with no missing entries — every cell that
fails to parse is coerced to zero (`coerceCell`) — but the values are not
necessarily non-negative. -/
theorem c1_numeric_columns_numeric
    (decode : Encoding → Option Raw) (df : DF) (fixed : Bool)
    (h : load_and_fix_data decode = .ok (df, fixed))
    (col : String) (hcol : col ∈ numeric_cols)
    (cell : Cell) (hcell : cell ∈ colCells df col) :
    ∃ q, cell = Cell.num q := by
  obtain ⟨raw, i, -, -, -, hdf⟩ := load_ok_elim h
  subst hdf
  exact allNum_of_mem_foldl numeric_cols _ col hcol cell hcell

/-- Witness for C1 (amended) at the happy fixture. -/
theorem c1_witness :
    load_and_fix_data happyDecode = Except.ok (happyDF, true) ∧
      "점포수" ∈ numeric_cols ∧ Cell.num 1234 ∈ colCells happyDF "점포수" ∧
      ∃ q, Cell.num 1234 = Cell.num q := by
  have h1 : load_and_fix_data happyDecode = Except.ok (happyDF, true) := rfl
  exact ⟨h1, by decide, by decide,
    c1_numeric_columns_numeric happyDecode happyDF true h1 "점포수" (by decide)
      (Cell.num 1234) (by decide)⟩

/-- C6: a header containing a source-name fragment is renamed by substring
containment; with several matching fragments the last matching entry in
col_map's fixed iteration order determines the result; a header matching
no fragment is left unchanged. -/
theorem c6_rename_last_match (c : String) :
    renameCol c
        = (((col_map.filter fun kv => strIn kv.1 c).getLast?).map Prod.snd).getD c ∧
      ((col_map.filter fun kv => strIn kv.1 c) = [] → renameCol c = c) := by
  have h : renameCol c
      = (((col_map.filter fun kv => strIn kv.1 c).getLast?).map Prod.snd).getD c :=
    foldl_overwrite (fun kv => strIn kv.1 c) col_map c
  refine ⟨h, fun hnil => ?_⟩
  have h2 := h
  rw [hnil] at h2
  simpa using h2

/-- Witness for C6 at a header matching no fragment. -/
theorem c6_witness :
    (col_map.filter fun kv => strIn kv.1 "기타") = [] ∧ renameCol "기타" = "기타" :=
  ⟨by decide, (c6_rename_last_match "기타").2 (by decide)⟩

/-- C7: numeric coercion converts the cell to text, strips commas, parses,
and replaces any cell that fails to parse by zero instead of raising:
"1,234" becomes 1234, "abc" becomes 0, the empty string becomes 0. -/
theorem c7_coercion_policy (s : String)
    (h : parseNumber (removeCommas s) = none) :
    coerceCell (Cell.str s) = Cell.num 0 ∧
      coerceCell (Cell.str "1,234") = Cell.num 1234 ∧
      coerceCell (Cell.str "abc") = Cell.num 0 ∧
      coerceCell (Cell.str "") = Cell.num 0 := by
  refine ⟨?_, by decide, by decide, by decide⟩
  rw [coerceCell, show cellToStr (Cell.str s) = s from rfl, h]
  rfl

/-- Witness for C7 at an unparseable cell. -/
theorem c7_witness :
    parseNumber (removeCommas "xyz") = none ∧
      (coerceCell (Cell.str "xyz") = Cell.num 0 ∧
        coerceCell (Cell.str "1,234") = Cell.num 1234 ∧
        coerceCell (Cell.str "abc") = Cell.num 0 ∧
        coerceCell (Cell.str "") = Cell.num 0) :=
  ⟨by decide, c7_coercion_policy "xyz" (by decide)⟩

/-- C8: the header cleanup of line 63 (remove space characters, then
strip) is idempotent: cleaning an already-cleaned header is the identity. -/
theorem c8_cleanup_idempotent (s : String) :
    cleanHeader (cleanHeader s) = cleanHeader s := by
  have h1 : removeSpaces (cleanHeader s).data = (cleanHeader s).data :=
    removeSpaces_eq_self fun c hc => cleanHeader_no_space hc
  have h2 : stripPy (cleanHeader s).data = (cleanHeader s).data := by
    rw [stripPy, cleanHeader_dropWhile, cleanHeader_rev_dropWhile, List.reverse_reverse]
  show (⟨stripPy (removeSpaces (cleanHeader s).data)⟩ : String) = cleanHeader s
  rw [h1, h2]

/-- C9: on every input on which load succeeds the returned header-fixed
flag is true: acceptance requires a marker in the first three rows, which
forces the header scan to fire, so the flag-false branch is unreachable
on a successful call. -/
theorem c9_success_flag_true (decode : Encoding → Option Raw) (df : DF) (fixed : Bool)
    (h : load_and_fix_data decode = .ok (df, fixed)) : fixed = true := by
  obtain ⟨-, -, -, -, hfx, -⟩ := load_ok_elim h
  exact hfx

/-- Witness for C9 at the happy fixture. -/
theorem c9_witness :
    load_and_fix_data happyDecode = Except.ok (happyDF, true) ∧ (true : Bool) = true := by
  have h1 : load_and_fix_data happyDecode = Except.ok (happyDF, true) := rfl
  exact ⟨h1, c9_success_flag_true happyDecode happyDF true h1⟩

/-- C2: during load, rows 0, 1, 2 are inspected in order and the first
row with a cell containing the store-count marker is selected; found at
index i, row i becomes the column header, rows 0..i inclusive are dropped
with row indexing reset to start from 0 (positional in the list model),
and the flag is true; when the scan completes without finding a marker
row among the first three, the table is left as loaded and the flag is
false. -/
theorem c2_header_detection (raw : Raw) :
    (∀ i, scanHeaderIdx raw = .ok (some i) →
      i < 3 ∧ ∃ row, raw[i]? = some row ∧ rowHasMarker row = true ∧
        (∀ j, j < i → ∃ rj, raw[j]? = some rj ∧ rowHasMarker rj = false) ∧
        applyHeaderFix raw (some i) = (row, raw.drop (i + 1), true)) ∧
    (scanHeaderIdx raw = .ok none →
      applyHeaderFix raw none = (defaultCols raw, raw, false) ∧
      ∀ j, j < 3 → ∃ rj, raw[j]? = some rj ∧ rowHasMarker rj = false) := by
  cases h0 : raw[0]? with
  | none =>
    refine ⟨fun i hi => ?_, fun hnone => ?_⟩
    · simp only [scanHeaderIdx, h0] at hi
      exact Except.noConfusion hi
    · simp only [scanHeaderIdx, h0] at hnone
      exact Except.noConfusion hnone
  | some r0 =>
    by_cases hm0 : rowHasMarker r0 = true
    · refine ⟨fun i hi => ?_, fun hnone => ?_⟩
      · simp [scanHeaderIdx, h0, hm0] at hi
        have hi0 : i = 0 := by omega
        subst hi0
        refine ⟨by omega, r0, h0, hm0, fun j hj => absurd hj (by omega), ?_⟩
        simp [applyHeaderFix, h0]
      · simp [scanHeaderIdx, h0, hm0] at hnone
    · have hm0' : rowHasMarker r0 = false := by simpa using hm0
      cases h1 : raw[1]? with
      | none =>
        refine ⟨fun i hi => ?_, fun hnone => ?_⟩
        · simp [scanHeaderIdx, h0, hm0', h1] at hi
        · simp [scanHeaderIdx, h0, hm0', h1] at hnone
      | some r1 =>
        by_cases hm1 : rowHasMarker r1 = true
        · refine ⟨fun i hi => ?_, fun hnone => ?_⟩
          · simp [scanHeaderIdx, h0, hm0', h1, hm1] at hi
            have hi1 : i = 1 := by omega
            subst hi1
            refine ⟨by omega, r1, h1, hm1, ?_, ?_⟩
            · intro j hj
              have hj0 : j = 0 := by omega
              subst hj0
              exact ⟨r0, h0, hm0'⟩
            · simp [applyHeaderFix, h1]
          · simp [scanHeaderIdx, h0, hm0', h1, hm1] at hnone
        · have hm1' : rowHasMarker r1 = false := by simpa using hm1
          cases h2 : raw[2]? with
          | none =>
            refine ⟨fun i hi => ?_, fun hnone => ?_⟩
            · simp [scanHeaderIdx, h0, hm0', h1, hm1', h2] at hi
            · simp [scanHeaderIdx, h0, hm0', h1, hm1', h2] at hnone
          | some r2 =>
            by_cases hm2 : rowHasMarker r2 = true
            · refine ⟨fun i hi => ?_, fun hnone => ?_⟩
              · simp [scanHeaderIdx, h0, hm0', h1, hm1', h2, hm2] at hi
                have hi2 : i = 2 := by omega
                subst hi2
                refine ⟨by omega, r2, h2, hm2, ?_, ?_⟩
                · intro j hj
                  interval_cases j
                  · exact ⟨r0, h0, hm0'⟩
                  · exact ⟨r1, h1, hm1'⟩
                · simp [applyHeaderFix, h2]
              · simp [scanHeaderIdx, h0, hm0', h1, hm1', h2, hm2] at hnone
            · have hm2' : rowHasMarker r2 = false := by simpa using hm2
              refine ⟨fun i hi => ?_, fun hnone => ?_⟩
              · simp [scanHeaderIdx, h0, hm0', h1, hm1', h2, hm2'] at hi
              · refine ⟨rfl, ?_⟩
                intro j hj
                interval_cases j
                · exact ⟨r0, h0, hm0'⟩
                · exact ⟨r1, h1, hm1'⟩
                · exact ⟨r2, h2, hm2'⟩

/-- Witness for C2 at a fixture with two junk rows before the marker row. -/
theorem c2_witness :
    scanHeaderIdx demoRaw = Except.ok (some 2) ∧
      (2 < 3 ∧ ∃ row, demoRaw[2]? = some row ∧ rowHasMarker row = true ∧
        (∀ j, j < 2 → ∃ rj, demoRaw[j]? = some rj ∧ rowHasMarker rj = false) ∧
        applyHeaderFix demoRaw (some 2) = (row, demoRaw.drop 3, true)) := by
  have h : scanHeaderIdx demoRaw = Except.ok (some 2) := rfl
  exact ⟨h, (c2_header_detection demoRaw).1 2 h⟩

/-- C3: the loop selects exactly the first encoding in the fixed candidate
order (utf-8, then cp949, then euc-kr) that both decodes and whose first
three rows, rendered as a blob, contain a marker substring; once a
candidate is accepted the result is determined by it alone and no later
candidate is consulted. -/
theorem c3_first_encoding_accepted (decode : Encoding → Option Raw) (raw : Raw) :
    tryEncodings decode encodings = some raw ↔
      ((decode Encoding.utf8 = some raw ∧ markerCheck raw = true) ∨
        (¬ acceptsEnc decode Encoding.utf8 ∧
          decode Encoding.cp949 = some raw ∧ markerCheck raw = true) ∨
        (¬ acceptsEnc decode Encoding.utf8 ∧ ¬ acceptsEnc decode Encoding.cp949 ∧
          decode Encoding.euckr = some raw ∧ markerCheck raw = true)) := by
  have he : encodings = Encoding.utf8 :: Encoding.cp949 :: Encoding.euckr :: [] := rfl
  rw [he, tryEncodings_cons_iff, tryEncodings_cons_iff, tryEncodings_cons_iff]
  have hnil : tryEncodings decode [] = (none : Option Raw) := rfl
  rw [hnil]
  constructor
  · rintro (h | ⟨ha, ⟨hb, h⟩ | ⟨hb, ⟨hc, h⟩ | ⟨hc, hfalse⟩⟩⟩)
    · exact Or.inl h
    · exact Or.inr (Or.inl ⟨ha, hb, h⟩)
    · exact Or.inr (Or.inr ⟨ha, hb, hc, h⟩)
    · exact Option.noConfusion hfalse
  · rintro (h | ⟨ha, hb, h⟩ | ⟨ha, hb, hc, h⟩)
    · exact Or.inl h
    · exact Or.inr ⟨ha, Or.inl ⟨hb, h⟩⟩
    · exact Or.inr ⟨ha, Or.inr ⟨hb, Or.inl ⟨hc, h⟩⟩⟩

/-- Witness for C3: the happy fixture is accepted at the first candidate. -/
theorem c3_witness : tryEncodings happyDecode encodings = some happyRaw :=
  (c3_first_encoding_accepted happyDecode happyRaw).mpr (Or.inl ⟨rfl, by decide⟩)

/-- C4: load raises DataFormatError (the ValueError of line 47) and
returns no table exactly when no candidate encoding passes both the
decode check and the marker-substring check on the first three rows. -/
theorem c4_dataFormat_iff (decode : Encoding → Option Raw) :
    load_and_fix_data decode = .error LoadError.dataFormat ↔
      (¬ acceptsEnc decode Encoding.utf8 ∧ ¬ acceptsEnc decode Encoding.cp949 ∧
        ¬ acceptsEnc decode Encoding.euckr) := by
  constructor
  · intro h
    cases htry : tryEncodings decode encodings with
    | none =>
      have hall := (tryEncodings_eq_none_iff decode encodings).mp htry
      exact ⟨hall _ (by decide), hall _ (by decide), hall _ (by decide)⟩
    | some raw =>
      obtain ⟨df, hok⟩ := load_ok_of_accepted htry
      rw [hok] at h
      exact Except.noConfusion h
  · rintro ⟨h1, h2, h3⟩
    have hnone : tryEncodings decode encodings = none := by
      rw [tryEncodings_eq_none_iff]
      intro e he
      cases e with
      | utf8 => exact h1
      | cp949 => exact h2
      | euckr => exact h3
    simp only [load_and_fix_data, hnone]

/-- Witness for C4 at the decode environment in which every read raises. -/
theorem c4_witness :
    load_and_fix_data noneDecode = Except.error LoadError.dataFormat :=
  (c4_dataFormat_iff noneDecode).mpr
    ⟨not_acceptsEnc_none rfl, not_acceptsEnc_none rfl, not_acceptsEnc_none rfl⟩

/-- The property claimed by the spec for C5: every whitespace character
of every header is removed, so none occurs anywhere in a header. -/
def headerFullyClean (s : String) : Prop :=
  ∀ c ∈ s.data, isPySpace c = false

/-- C5, counterexample: line 63 removes only the space character U+0020,
so on a successful load the header "a\tb" survives with an interior tab
and the claimed all-whitespace removal fails on the code. -/
theorem c5_counterexample :
    load_and_fix_data tabDecode = Except.ok (tabDF, true) ∧
      "a\tb" ∈ tabDF.cols ∧ ¬ headerFullyClean "a\tb" := by
  refine ⟨rfl, by decide, ?_⟩
  intro h
  exact absurd (h '\t' (by decide)) (by decide)

/-- C5 (amended): after load returns, every column header has had all
space characters (U+0020) removed and leading/trailing whitespace
stripped — regardless of whether the header fix fired — but interior
non-space whitespace such as a tab may remain. -/
theorem c5_headers_clean (decode : Encoding → Option Raw) (df : DF) (fixed : Bool)
    (h : load_and_fix_data decode = .ok (df, fixed)) :
    ∀ s ∈ df.cols, headerCodeClean s := by
  obtain ⟨raw, i, -, -, -, hdf⟩ := load_ok_elim h
  subst hdf
  intro s hs
  have hcols : (coerceNumericCols
      { cols := (((applyHeaderFix raw (some i)).1.map cleanHeader).map renameCol),
        rows := (applyHeaderFix raw (some i)).2.1.map fun r => r.map Cell.str }).cols
      = (((applyHeaderFix raw (some i)).1.map cleanHeader).map renameCol) :=
    foldl_coerceStep_cols numeric_cols _
  rw [hcols] at hs
  obtain ⟨t, ht, hts⟩ := List.mem_map.mp hs
  obtain ⟨u, hu, hut⟩ := List.mem_map.mp ht
  rcases renameCol_cases t with hr | hr
  · rw [← hts, hr, ← hut]
    exact cleanHeader_clean u
  · rw [← hts]
    exact canonical_names_clean _ hr

/-- Witness for C5 (amended) at the happy fixture. -/
theorem c5_witness :
    load_and_fix_data happyDecode = Except.ok (happyDF, true) ∧
      "대분류" ∈ happyDF.cols ∧ headerCodeClean "대분류" := by
  have h1 : load_and_fix_data happyDecode = Except.ok (happyDF, true) := rfl
  exact ⟨h1, by decide, c5_headers_clean happyDecode happyDF true h1 "대분류" (by decide)⟩

/-- C10: every exception during a decode attempt — missing file, CSV
parse error, or invalid bytes, all modelled by `decode e = none` — is
swallowed and the next candidate is tried; consequently an input on which
every read attempt raises surfaces as the same single DataFormatError as
a marker-match failure, and no FileNotFound-style error escapes load. -/
theorem c10_exceptions_swallowed (decode : Encoding → Option Raw) (e : Encoding)
    (rest : List Encoding) (h : decode e = none) :
    tryEncodings decode (e :: rest) = tryEncodings decode rest ∧
      load_and_fix_data noneDecode = Except.error LoadError.dataFormat := by
  refine ⟨?_, rfl⟩
  simp only [tryEncodings, h]

/-- Witness for C10 at the decode environment in which every read raises. -/
theorem c10_witness :
    tryEncodings noneDecode [Encoding.utf8] = tryEncodings noneDecode [] ∧
      load_and_fix_data noneDecode = Except.error LoadError.dataFormat :=
  c10_exceptions_swallowed noneDecode Encoding.utf8 [] rfl

end App
